import Mathlib

/-!
Verification of the sensei-mcp template pipeline (src/prompts.ts, src/resources.ts).

Strings are modelled as `List Char`.  JavaScript regular-expression scanning,
`String.prototype.replace` (including `$`-pattern interpretation of the
replacement string, per ECMAScript GetSubstitution), `matchAll` iteration and
`Map` lookups are embedded as executable Lean functions.  The file-system
directory scan is modelled by an explicit listing of entries (regular files
with a read outcome, directories, and entries whose `stat` call throws).
-/

set_option autoImplicit false
set_option maxRecDepth 100000

namespace Sensei

abbrev Str := List Char

/-- The character U+007B (left curly brace). -/
def lb : Char := '\x7b'

/-- The character U+007D (right curly brace). -/
def rb : Char := '\x7d'

def strOf (s : String) : Str := s.data

/-- Characters matched by JavaScript `\s` (WhiteSpace and LineTerminator). -/
def isJsSpace (c : Char) : Bool :=
  decide (c.toNat ∈ ([9, 10, 11, 12, 13, 32, 0xa0, 0x1680, 0x2028, 0x2029,
      0x202f, 0x205f, 0x3000, 0xfeff] : List Nat) ∨
    (0x2000 ≤ c.toNat ∧ c.toNat ≤ 0x200a))

/-- ECMAScript LineTerminator characters (which `.` does not match). -/
def isLineTerm (c : Char) : Bool :=
  decide (c.toNat = 10 ∨ c.toNat = 13 ∨ c.toNat = 0x2028 ∨ c.toNat = 0x2029)

/-- Characters matched by `[a-zA-Z0-9_]` (the VARIABLE_PATTERN name class). -/
def isNameChar (c : Char) : Bool :=
  decide ((97 ≤ c.toNat ∧ c.toNat ≤ 122) ∨ (65 ≤ c.toNat ∧ c.toNat ≤ 90) ∨
    (48 ≤ c.toNat ∧ c.toNat ≤ 57) ∨ c.toNat = 95)

def startsWith : Str → Str → Bool
  | [], _ => true
  | _ :: _, [] => false
  | p :: ps, c :: cs => p = c && startsWith ps cs

/-- JavaScript `String.prototype.includes` (substring containment). -/
def containsSub (pat : Str) : Str → Bool
  | [] => startsWith pat []
  | c :: t => startsWith pat (c :: t) || containsSub pat t

/-- ASCII case lowering, as `String.prototype.toLowerCase` acts on ASCII. -/
def jsToLower (c : Char) : Char :=
  if 65 ≤ c.toNat ∧ c.toNat ≤ 90 then Char.ofNat (c.toNat + 32) else c

def lowerStr (s : Str) : Str := s.map jsToLower

def endsWith (pat s : Str) : Bool := startsWith pat.reverse s.reverse

/-- `\x7b\x7b` followed by `inner` followed by `\x7d\x7d`: a template token. -/
def braced (inner : Str) : Str := lb :: lb :: (inner ++ [rb, rb])

/-!  The variable scanner: `content.matchAll(/\{\{([a-zA-Z0-9_]+)\}\}/g)`.  At
each position, the engine tries to match the pattern; the name class is greedy
but, because a name character is never a brace, no backtracking can occur, so
the match at a position is the maximal name-character run bracketed by double
braces.  On success the scan resumes after the match, otherwise one character
later. -/

def tryVarMatch : Str → Option (Str × Str)
  | c1 :: c2 :: rest =>
    if c1 = lb ∧ c2 = lb then
      let n := rest.takeWhile isNameChar
      let d := rest.dropWhile isNameChar
      if n ≠ [] ∧ d.take 2 = [rb, rb] then some (n, d.drop 2) else none
    else none
  | _ => none

theorem tryVarMatch_length {s n r : Str} (h : tryVarMatch s = some (n, r)) :
    r.length < s.length := by
  rcases s with _ | ⟨c1, _ | ⟨c2, rest⟩⟩
  · simp [tryVarMatch] at h
  · simp [tryVarMatch] at h
  · simp only [tryVarMatch] at h
    split at h
    · split at h
      · simp only [Option.some.injEq, Prod.mk.injEq] at h
        obtain ⟨-, rfl⟩ := h
        have hlen : (rest.takeWhile isNameChar).length +
            (rest.dropWhile isNameChar).length = rest.length := by
          rw [← List.length_append, List.takeWhile_append_dropWhile]
        simp only [List.length_cons, List.length_drop]
        omega
      · simp at h
    · simp at h

def scanVarsF : Nat → Str → List Str
  | 0, _ => []
  | _ + 1, [] => []
  | f + 1, c :: t =>
    match tryVarMatch (c :: t) with
    | some (n, r) => n :: scanVarsF f r
    | none => scanVarsF f t

theorem scanVarsF_fuel : ∀ (f₁ : Nat) (s : Str) (f₂ : Nat),
    s.length ≤ f₁ → s.length ≤ f₂ → scanVarsF f₁ s = scanVarsF f₂ s := by
  intro f₁
  induction f₁ with
  | zero =>
    intro s f₂ h₁ _
    have : s = [] := by cases s <;> simp_all
    subst this
    cases f₂ <;> rfl
  | succ f ih =>
    intro s f₂ h₁ h₂
    cases s with
    | nil => cases f₂ <;> rfl
    | cons c t =>
      cases f₂ with
      | zero => simp at h₂
      | succ f₂ =>
        show scanVarsF (f + 1) (c :: t) = scanVarsF (f₂ + 1) (c :: t)
        unfold scanVarsF
        cases hm : tryVarMatch (c :: t) with
        | some nr =>
          obtain ⟨n, r⟩ := nr
          have hlt := tryVarMatch_length hm
          simp only [List.length_cons] at h₁ h₂ hlt
          simp only [hm]
          rw [ih r f₂ (by omega) (by omega)]
        | none =>
          simp only [hm]
          simp only [List.length_cons] at h₁ h₂
          rw [ih t f₂ (by omega) (by omega)]

/-- All matches of VARIABLE_PATTERN over the content, in scan order. -/
def scanVars (s : Str) : List Str := scanVarsF s.length s

theorem scanVars_nil : scanVars [] = [] := rfl

theorem scanVars_cons (c : Char) (t : Str) :
    scanVars (c :: t) = match tryVarMatch (c :: t) with
      | some (n, r) => n :: scanVars r
      | none => scanVars t := by
  show scanVarsF (t.length + 1) (c :: t) = _
  unfold scanVarsF
  cases hm : tryVarMatch (c :: t) with
  | some nr =>
    obtain ⟨n, r⟩ := nr
    have hlt := tryVarMatch_length hm
    simp only [List.length_cons] at hlt
    simp only [scanVars]
    rw [scanVarsF_fuel t.length r r.length (by omega) (by omega)]
  | none => simp [scanVars]

/-- `extractVariables` from src/prompts.ts: collect VARIABLE_PATTERN match
names into an insertion-ordered set, skipping names that start with
`resource:`. -/
def extractVariables (content : Str) : List Str :=
  (scanVars content).foldl
    (fun acc v =>
      if startsWith (strOf "resource:") v then acc
      else if v ∈ acc then acc else acc ++ [v])
    []

/-!  The resource-reference scanner:
`content.matchAll(/\{\{resource:(.*?)\}\}/g)`.  After the literal opener the
lazy group consumes characters one at a time — `.` refuses LineTerminators —
until the closing `\x7d\x7d` is found. -/

/-- The literal opener of a resource token. -/
def resOpen : Str := lb :: lb :: strOf "resource:"

/-- A full resource token. -/
def resTok (path : Str) : Str := resOpen ++ path ++ [rb, rb]

/-- The lazy `(.*?)\x7d\x7d` tail: shortest LineTerminator-free prefix that is
followed by the two closing braces. -/
def lazyDot : Str → Option (Str × Str)
  | [] => none
  | c :: t =>
    if c = rb ∧ t.take 1 = [rb] then some ([], t.drop 1)
    else if isLineTerm c then none
    else (lazyDot t).map (fun pr => (c :: pr.1, pr.2))

theorem lazyDot_length : ∀ {u p r : Str}, lazyDot u = some (p, r) →
    p.length + 2 + r.length = u.length := by
  intro u
  induction u with
  | nil => intro p r h; simp [lazyDot] at h
  | cons c t ih =>
    intro p r h
    simp only [lazyDot] at h
    split at h
    · rename_i hcl
      rcases t with _ | ⟨c', t'⟩
      · simp at hcl
      · simp only [Option.some.injEq, Prod.mk.injEq] at h
        obtain ⟨rfl, rfl⟩ := h
        simp only [List.length_nil, List.length_cons, List.drop_one,
          List.tail_cons]
        omega
    · split at h
      · exact Option.noConfusion h
      · cases hld : lazyDot t with
        | none => rw [hld] at h; exact Option.noConfusion h
        | some pr =>
          rw [hld] at h
          obtain ⟨p', r'⟩ := pr
          simp at h
          obtain ⟨rfl, rfl⟩ := h
          have := ih hld
          simp only [List.length_cons]
          omega

def tryResMatch (s : Str) : Option ((Str × Str) × Str) :=
  if startsWith resOpen s then
    match lazyDot (s.drop resOpen.length) with
    | some (p, r) => some ((resTok p, p), r)
    | none => none
  else none

theorem startsWith_length : ∀ {p s : Str}, startsWith p s = true →
    p.length ≤ s.length := by
  intro p
  induction p with
  | nil => simp
  | cons c t ih =>
    intro s h
    cases s with
    | nil => simp [startsWith] at h
    | cons c' s' =>
      simp only [startsWith, Bool.and_eq_true] at h
      have := ih h.2
      simp only [List.length_cons]
      omega

theorem tryResMatch_length {s : Str} {fp : Str × Str} {r : Str}
    (h : tryResMatch s = some (fp, r)) : r.length < s.length := by
  unfold tryResMatch at h
  split at h
  · rename_i hsw
    cases hld : lazyDot (s.drop resOpen.length) with
    | none => rw [hld] at h; simp at h
    | some pr =>
      rw [hld] at h
      obtain ⟨p, rr⟩ := pr
      simp only [Option.some.injEq, Prod.mk.injEq] at h
      obtain ⟨-, rfl⟩ := h
      have hlen := lazyDot_length hld
      have hsl := startsWith_length hsw
      simp only [List.length_drop] at hlen
      have : resOpen.length = 11 := rfl
      omega
  · simp at h

def scanResF : Nat → Str → List (Str × Str)
  | 0, _ => []
  | _ + 1, [] => []
  | f + 1, c :: t =>
    match tryResMatch (c :: t) with
    | some (fp, r) => fp :: scanResF f r
    | none => scanResF f t

theorem scanResF_fuel : ∀ (f₁ : Nat) (s : Str) (f₂ : Nat),
    s.length ≤ f₁ → s.length ≤ f₂ → scanResF f₁ s = scanResF f₂ s := by
  intro f₁
  induction f₁ with
  | zero =>
    intro s f₂ h₁ _
    have : s = [] := by cases s <;> simp_all
    subst this
    cases f₂ <;> rfl
  | succ f ih =>
    intro s f₂ h₁ h₂
    cases s with
    | nil => cases f₂ <;> rfl
    | cons c t =>
      cases f₂ with
      | zero => simp at h₂
      | succ f₂ =>
        show scanResF (f + 1) (c :: t) = scanResF (f₂ + 1) (c :: t)
        unfold scanResF
        cases hm : tryResMatch (c :: t) with
        | some fpr =>
          obtain ⟨fp, r⟩ := fpr
          have hlt := tryResMatch_length hm
          simp only [List.length_cons] at h₁ h₂ hlt
          simp only [hm]
          rw [ih r f₂ (by omega) (by omega)]
        | none =>
          simp only [hm]
          simp only [List.length_cons] at h₁ h₂
          rw [ih t f₂ (by omega) (by omega)]

/-- All matches of RESOURCE_REF_PATTERN, as (full match, captured path) pairs
in scan order. -/
def scanRes (s : Str) : List (Str × Str) := scanResF s.length s

theorem scanRes_nil : scanRes [] = [] := rfl

theorem scanRes_cons (c : Char) (t : Str) :
    scanRes (c :: t) = match tryResMatch (c :: t) with
      | some (fp, r) => fp :: scanRes r
      | none => scanRes t := by
  show scanResF (t.length + 1) (c :: t) = _
  unfold scanResF
  cases hm : tryResMatch (c :: t) with
  | some fpr =>
    obtain ⟨fp, r⟩ := fpr
    have hlt := tryResMatch_length hm
    simp only [List.length_cons] at hlt
    simp only [scanRes]
    rw [scanResF_fuel t.length r r.length (by omega) (by omega)]
  | none => simp [scanRes]

/-!  `String.prototype.replace` with a string pattern: replace the first
occurrence, interpreting `$`-patterns in the replacement string per
ECMAScript GetSubstitution (`$$`, `$&`, `$`-backquote, `$`-quote; with a
string pattern there are no capture groups, so `$n` stays literal). -/

def getSubst (matched before after : Str) : Str → Str
  | [] => []
  | [c] => if c = '$' then ['$'] else [c]
  | c :: d :: r =>
    if c = '$' then
      if d = '$' then '$' :: getSubst matched before after r
      else if d = '&' then matched ++ getSubst matched before after r
      else if d = '\x60' then before ++ getSubst matched before after r
      else if d = '\x27' then after ++ getSubst matched before after r
      else '$' :: getSubst matched before after (d :: r)
    else c :: getSubst matched before after (d :: r)

theorem getSubst_no_dollar (m b a : Str) : ∀ {repl : Str}, '$' ∉ repl →
    getSubst m b a repl = repl := by
  intro repl
  induction repl with
  | nil => intro _; rfl
  | cons c rest ih =>
    intro h
    have hc : c ≠ '$' := fun hh => h (hh ▸ List.mem_cons_self ..)
    have hrest : '$' ∉ rest := fun hh => h (List.mem_cons_of_mem _ hh)
    cases rest with
    | nil => simp [getSubst, hc]
    | cons d r =>
      simp only [getSubst, if_neg hc]
      rw [ih hrest]

/-- Index of the first occurrence of `pat` in a string, if any. -/
def firstOcc (pat : Str) : Str → Option Nat
  | [] => if startsWith pat [] then some 0 else none
  | c :: t =>
    if startsWith pat (c :: t) then some 0
    else (firstOcc pat t).map (· + 1)

def replaceFirst (s pat repl : Str) : Str :=
  match firstOcc pat s with
  | none => s
  | some i =>
    s.take i ++ getSubst pat (s.take i) (s.drop (i + pat.length)) repl ++
      s.drop (i + pat.length)

/-- JavaScript `Map.prototype.get` over an association-list model of the map
(keys unique, first binding wins). -/
def mapGet (m : List (Str × Str)) (k : Str) : Option Str :=
  match m with
  | [] => none
  | (k', v) :: t => if k' = k then some v else mapGet t k

def fileUri (p : Str) : Str := strOf "file://" ++ p

def notFoundMsg (p : Str) : Str :=
  strOf "[Resource not found: " ++ p ++ strOf "]"

/-- The body of the `for (const match of resourceRefs)` loop in
`processPromptContent`: look up `file://<path>` in the resource map and
`replace` the first occurrence of the full match with the content (when found
and truthy) or with the `[Resource not found: ...]` placeholder. -/
def resolveStep (resourceMap : List (Str × Str)) (acc : Str) :
    Str × Str → Str
  | (full, path) =>
    match mapGet resourceMap (fileUri path) with
    | none => replaceFirst acc full (notFoundMsg path)
    | some rc =>
      if rc = [] then replaceFirst acc full (notFoundMsg path)
      else replaceFirst acc full rc

/-- `processPromptContent` from src/prompts.ts: fold the resolution step over
the RESOURCE_REF_PATTERN matches of the original content.  The embedding is a
total function: the source never throws on a missing resource. -/
def processPromptContent (content : Str) (resourceMap : List (Str × Str)) :
    Str :=
  (scanRes content).foldl (resolveStep resourceMap) content

theorem resolveStep_missing {rm : List (Str × Str)} {path : Str}
    (hm : mapGet rm (fileUri path) = none) (acc full : Str) :
    resolveStep rm acc (full, path) = replaceFirst acc full (notFoundMsg path)
    := by
  simp only [resolveStep]
  rw [hm]

theorem resolveStep_found {rm : List (Str × Str)} {path c : Str}
    (hm : mapGet rm (fileUri path) = some c) (hc : c ≠ [])
    (acc full : Str) : resolveStep rm acc (full, path) = replaceFirst acc full c
    := by
  simp only [resolveStep]
  rw [hm]
  simp [hc]

/-!  METADATA_PATTERN: `^---\s*\n([\s\S]*?)\n---\s*\n`, matched with JS
backtracking semantics.  After the literal `---`, the greedy `\s*` tries the
longest whitespace run first and shrinks on failure of the continuation; each
candidate must end at a `\n`.  The lazy `[\s\S]*?` group then takes the
shortest interior for which the closing `\n---\s*\n` matches, where the final
greedy `\s*\n` takes the last newline inside its whitespace run. -/

/-- Length of the maximal `\s*` run at the front of a string. -/
def wsRun (s : Str) : Nat := (s.takeWhile isJsSpace).length

/-- Positions `j` at which `\s*` followed by `\n` can stop, in the greedy
(descending) order the backtracking engine tries them. -/
def nlCandidates (s : Str) : List Nat :=
  ((List.range (wsRun s + 1)).filter (fun j => s.get? j = some '\n')).reverse

/-- Match `\n---\s*\n` at the front of `u`; returns the number of characters
consumed.  The trailing `\s*` is greedy: the largest stop position wins. -/
def closeTail (u : Str) : Option Nat :=
  if startsWith (strOf "\n---") u then
    match (nlCandidates (u.drop 4)).head? with
    | some j => some (4 + j + 1)
    | none => none
  else none

/-- The lazy group: the least `i` such that `\n---\s*\n` matches at `u.drop i`,
together with the characters that close match consumes. -/
def findClose : Str → Option (Nat × Nat)
  | [] => match closeTail [] with
    | some m => some (0, m)
    | none => none
  | c :: t =>
    match closeTail (c :: t) with
    | some m => some (0, m)
    | none => (findClose t).map (fun im => (im.1 + 1, im.2))

/-- Try the candidate stops of the first `\s*\n` in order; `s1` is the text
after the literal `---`.  Returns the captured group and the length of the
whole match. -/
def metaTryStops (s1 : Str) : List Nat → Option (Str × Nat)
  | [] => none
  | j :: rest =>
    let s2 := s1.drop (j + 1)
    match findClose s2 with
    | some (i, m) => some (s2.take i, 3 + (j + 1) + i + m)
    | none => metaTryStops s1 rest

/-- The anchored METADATA_PATTERN match: captured group and full match
length, or `none`. -/
def matchMetadata (s : Str) : Option (Str × Nat) :=
  if startsWith (strOf "---") s then metaTryStops (s.drop 3) (nlCandidates (s.drop 3))
  else none

/-- Prompt metadata record (src/prompts.ts `PromptMetadata`); every field is
optional, mirroring the JS object whose keys are set only when parsed. -/
structure PromptMetadata where
  description : Option Str := none
  registerAsTool : Option Bool := none
  toolName : Option Str := none
  name : Option Str := none
  role : Option Str := none
  registerAsPrompt : Option Bool := none
deriving DecidableEq

/-- JavaScript `String.prototype.trim` (strips WhiteSpace ∪ LineTerminator on
both ends). -/
def trimStr (s : Str) : Str :=
  ((s.dropWhile isJsSpace).reverse.dropWhile isJsSpace).reverse

/-- `String.prototype.split('\n')`. -/
def splitNl : Str → List Str
  | [] => [[]]
  | c :: t =>
    if c = '\n' then [] :: splitNl t
    else
      match splitNl t with
      | [] => [[c]]
      | l :: ls => (c :: l) :: ls

/-- `String.prototype.indexOf` for a single character. -/
def idxOf (c : Char) : Str → Option Nat
  | [] => none
  | x :: t => if x = c then some 0 else (idxOf c t).map (· + 1)

/-- One iteration of the `key: value` loop in `parseMetadata`: split on the
first colon (which must not be at position 0), trim and lower-case the key,
trim the value, and assign the recognized keys when both are non-empty. -/
def processMetaLine (md : PromptMetadata) (line : Str) : PromptMetadata :=
  match idxOf ':' line with
  | none => md
  | some ci =>
    if ci > 0 then
      let key := lowerStr (trimStr (line.take ci))
      let value := trimStr (line.drop (ci + 1))
      if key ≠ [] ∧ value ≠ [] then
        if key = strOf "description" then { md with description := some value }
        else if key = strOf "name" then { md with name := some value }
        else if key = strOf "role" then { md with role := some value }
        else if key = strOf "register_as_prompt" ∨ key = strOf "registerasprompt"
        then { md with registerAsPrompt := some (lowerStr value = strOf "true") }
        else if key = strOf "register_as_tool" ∨ key = strOf "registerastool"
        then { md with registerAsTool := some (lowerStr value = strOf "true") }
        else if key = strOf "tool_name" ∨ key = strOf "toolname"
        then { md with toolName := some value }
        else md
      else md
    else md

/-- `parseMetadata` from src/prompts.ts: match METADATA_PATTERN; if it
matches, parse the interior as `key: value` lines (only when the interior has
non-whitespace content) and strip the whole matched block; otherwise return
empty metadata and the content unchanged. -/
def parseMetadata (content : Str) : PromptMetadata × Str :=
  match matchMetadata content with
  | none => ({}, content)
  | some (block, fullLen) =>
    let md :=
      if trimStr block ≠ [] then (splitNl block).foldl processMetaLine {}
      else ({} : PromptMetadata)
    (md, content.drop fullLen)

/-!  The Dojo documentation nudge and reference helpers
(`addDojoDocsNudge`, `addDojoDocReferences` in src/prompts.ts). -/

def modelKeywords : List Str :=
  [strOf "model", strOf "models", strOf "entity", strOf "entities",
   strOf "data structure", strOf "schema"]

def logicKeywords : List Str :=
  [strOf "system", strOf "systems", strOf "logic", strOf "game logic",
   strOf "function", strOf "functions", strOf "contract"]

def configKeywords : List Str :=
  [strOf "config", strOf "configuration", strOf "scarb", strOf "toml",
   strOf "profile", strOf "deployment"]

/-- `keywords.some(k => content.toLowerCase().includes(k.toLowerCase()))`. -/
def hasKw (content : Str) (kws : List Str) : Bool :=
  kws.any (fun k => containsSub (lowerStr k) (lowerStr content))

def modelNudge : Str :=
  strOf "\n\n📚 **Verify your model code against the [Dojo Models documentation](https://www.dojoengine.org/framework/models). Make sure to implement proper traits and follow entity relationships best practices.**"

def systemNudge : Str :=
  strOf "\n\n📚 **Verify your system logic against the [Dojo Systems documentation](https://www.dojoengine.org/framework/world/systems). Ensure correct world state management and authorization patterns.**"

def configNudge : Str :=
  strOf "\n\n📚 **Verify your configuration against the [Dojo Config documentation](https://www.dojoengine.org/framework/config). Check for proper Scarb.toml setup and profile configuration.**"

def generalNudge : Str :=
  strOf "\n\n📚 **Verify your Dojo code against the [official documentation](https://www.dojoengine.org/overview). Follow best practices for building provable games and applications.**"

/-- `addDojoDocsNudge(content, topic?)`. -/
def addDojoDocsNudge (content : Str) (topic : Option Str) : Str :=
  let hasModelKeywords := hasKw content modelKeywords
  let hasLogicKeywords := hasKw content logicKeywords
  let hasConfigKeywords := hasKw content configKeywords
  let nudge : Str :=
    match topic with
    | some t =>
      if containsSub (strOf "model") (lowerStr t) then modelNudge
      else if containsSub (strOf "logic") (lowerStr t) ||
          containsSub (strOf "system") (lowerStr t) then systemNudge
      else if containsSub (strOf "config") (lowerStr t) then configNudge
      else []
    | none =>
      if hasModelKeywords then modelNudge
      else if hasLogicKeywords then systemNudge
      else if hasConfigKeywords then configNudge
      else []
  let nudge2 :=
    if nudge = [] ∧ (hasModelKeywords || hasLogicKeywords || hasConfigKeywords)
    then generalNudge else nudge
  if nudge2 ≠ [] then content ++ nudge2 else content

def modelRefs : Str :=
  strOf "\n\n---\n**Reference Documentation:**\n- [Models Overview](https://www.dojoengine.org/framework/models)\n- [Entities in Dojo](https://www.dojoengine.org/framework/models/entities)\n- [Model Introspection](https://www.dojoengine.org/framework/models/introspect)"

def systemRefs : Str :=
  strOf "\n\n---\n**Reference Documentation:**\n- [Systems](https://www.dojoengine.org/framework/world/systems)\n- [World API](https://www.dojoengine.org/framework/world/api)\n- [Authorization](https://www.dojoengine.org/framework/authorization)"

def configRefs : Str :=
  strOf "\n\n---\n**Reference Documentation:**\n- [Configuration Guide](https://www.dojoengine.org/framework/config)\n- [Sozo Commands](https://www.dojoengine.org/toolchain/sozo)\n- [World Contract](https://www.dojoengine.org/framework/world)"

def generalRefs : Str :=
  strOf "\n\n---\n**Reference Documentation:**\n- [Dojo Documentation](https://www.dojoengine.org/overview)"

/-- `addDojoDocReferences(content)`. -/
def addDojoDocReferences (content : Str) : Str :=
  if containsSub (strOf "dojoengine.org/framework") content ||
      containsSub (strOf "dojoengine.org/toolchain") content then content
  else
    let hasModelContent :=
      containsSub (strOf "#[dojo::model]") content ||
      containsSub (strOf "#[key]") content ||
      containsSub (strOf "derive(Model") content ||
      containsSub (strOf "derive(Drop, Serde)") content
    let hasSystemContent :=
      containsSub (strOf "#[dojo::contract]") content ||
      containsSub (strOf "world.read_model") content ||
      containsSub (strOf "world.write_model") content ||
      containsSub (strOf "self.world(") content
    let hasConfigContent :=
      containsSub (strOf "Scarb.toml") content ||
      containsSub (strOf "dojo_") content ||
      containsSub (strOf "[writers]") content ||
      containsSub (strOf "[target.starknet-contract]") content
    if hasModelContent then content ++ modelRefs
    else if hasSystemContent then content ++ systemRefs
    else if hasConfigContent then content ++ configRefs
    else if containsSub (strOf "fn ") content ∧
        containsSub (strOf "struct ") content ∧
        containsSub (strOf "impl ") content then content ++ generalRefs
    else content

/-!  `new RegExp('\\{\\{' + variable + '\\}\\}', 'g')` applied through
`String.prototype.replace`: a single left-to-right pass over the subject
replacing every (non-overlapping) occurrence of the literal token, applying
GetSubstitution to the replacement at each match. -/

def replAllF (pat repl : Str) : Nat → Str → Str → Str
  | 0, _, _ => []
  | f + 1, pre, s =>
    if startsWith pat s ∧ pat ≠ [] then
      getSubst pat pre (s.drop pat.length) repl ++
        replAllF pat repl f (pre ++ pat) (s.drop pat.length)
    else
      match s with
      | [] => []
      | c :: t => c :: replAllF pat repl f (pre ++ [c]) t

def replaceAllG (s pat repl : Str) : Str := replAllF pat repl s.length [] s

/-- `inputs[variable] || ''` (an absent or empty value both yield the empty
string). -/
def valueOf (inputs : List (Str × Str)) (v : Str) : Str :=
  match mapGet inputs v with
  | none => []
  | some x => x

/-- The tool handler closure built in `registerPrompt` (src/prompts.ts):
substitute each extracted variable globally, append a generic `input` when
supplied and not itself a variable, then apply the Dojo documentation
post-processing.  Returns the text of the single content item of the
`CallToolResult`. -/
def toolHandler (toolName processedContent : Str)
    (inputs : List (Str × Str)) : Str :=
  let vars := extractVariables processedContent
  let fc1 := vars.foldl
    (fun acc v => replaceAllG acc (braced v) (valueOf inputs v))
    processedContent
  let inputVal := valueOf inputs (strOf "input")
  let fc2 :=
    if inputVal ≠ [] ∧ ¬ (strOf "input") ∈ vars then
      fc1 ++ strOf "\n\n" ++ inputVal
    else fc1
  let isDojo := containsSub (strOf "dojo") (lowerStr toolName)
  let topic :=
    if isDojo then some (replaceFirst toolName (strOf "dojo_") []) else none
  let inputContext := inputVal
  let fc3 := if isDojo then addDojoDocReferences fc2 else fc2
  addDojoDocsNudge (fc3 ++ inputContext) topic

/-- The registrations `registerPrompt` performs on the server: always one
prompt (name, description, served text); additionally one tool when
`metadata.registerAsTool` is truthy. -/
structure Registration where
  prompts : List (Str × Option Str × Str)
  tools : List (Str × Option Str × List Str)
deriving DecidableEq

/-- `registerPrompt` from src/prompts.ts, as the registrations it adds.  The
prompt is registered unconditionally; the tool only under the
`registerAsTool` flag, named by `metadata.toolName || promptName`, with the
extracted variables as its schema keys. -/
def registerPrompt (promptName processedContent : Str)
    (metadata : PromptMetadata) : Registration :=
  let promptReg := [(promptName, metadata.description, processedContent)]
  if metadata.registerAsTool = some true then
    let toolName :=
      match metadata.toolName with
      | some t => if t ≠ [] then t else promptName
      | none => promptName
    let vars := extractVariables processedContent
    { prompts := promptReg,
      tools := [(toolName, metadata.description, vars)] }
  else { prompts := promptReg, tools := [] }

/-!  The directory scans of `loadResources` (src/resources.ts) and
`loadPrompts` (src/prompts.ts).  `fs.readdir(dir)` — called without the
`recursive` option — yields only the immediate entries of the directory, so
the scan is modelled on a listing of named top-level nodes.  A node is a
regular file whose read succeeds or fails, a directory (with its own
children, which `readdir` does not surface), or an entry whose `fs.stat`
throws.  In both loaders the `endsWith('.txt')` test runs before `stat`, the
`stat` call sits outside the per-file `try`, and only `loadFile` is guarded
by it: a read failure skips the file, while a `stat` failure propagates to
the outer catch, which returns whatever had been accumulated. -/

inductive FNode where
  | fileOk (content : Str)
  | fileErr
  | dir (children : List (Str × Str))
  | broken
deriving DecidableEq

/-- `relPath.replace(/\.[^\/.]+$/, '')`: strip a final extension — a dot
followed by at least one character that is neither a dot nor a slash, at the
end of the string. -/
def stripExt (s : Str) : Str :=
  let r := s.reverse
  let run := r.takeWhile (fun c => ¬ (c = '.' ∨ c = '/'))
  if run ≠ [] ∧ (r.drop run.length).head? = some '.' then
    (r.drop (run.length + 1)).reverse
  else s

/-- `Map.prototype.set`: replace the value of an existing key in place,
otherwise append the new binding. -/
def setAssoc (m : List (Str × Str)) (k v : Str) : List (Str × Str) :=
  match m with
  | [] => [(k, v)]
  | (k', v') :: t => if k' = k then (k, v) :: t else (k', v') :: setAssoc t k v

def keysOf (m : List (Str × Str)) : List Str := m.map Prod.fst

/-- The `for (const file of files)` loop of `loadResources`. -/
def loadResLoop : List (Str × FNode) → List (Str × Str) → List (Str × Str)
  | [], acc => acc
  | (name, node) :: rest, acc =>
    if endsWith (strOf ".txt") name then
      match node with
      | .broken => acc
      | .dir _ => loadResLoop rest acc
      | .fileErr => loadResLoop rest acc
      | .fileOk c => loadResLoop rest (setAssoc acc (fileUri (stripExt name)) c)
    else loadResLoop rest acc

/-- `loadResources` from src/resources.ts, as the resource map it returns for
a given top-level directory listing. -/
def loadResources (root : List (Str × FNode)) : List (Str × Str) :=
  loadResLoop root []

/-- `path.basename(file, '.txt')` for a bare (slash-free) entry name. -/
def promptBasename (n : Str) : Str :=
  if endsWith (strOf ".txt") n ∧ 4 < n.length then n.take (n.length - 4) else n

/-- The `for (const file of files)` loop of `loadPrompts`, accumulating the
registrations made. -/
def loadPromptsLoop (resourceMap : List (Str × Str)) :
    List (Str × FNode) → List Registration → List Registration
  | [], acc => acc
  | (name, node) :: rest, acc =>
    if endsWith (strOf ".txt") name then
      match node with
      | .broken => acc
      | .dir _ => loadPromptsLoop resourceMap rest acc
      | .fileErr => loadPromptsLoop resourceMap rest acc
      | .fileOk raw =>
        let pm := parseMetadata raw
        let processed := processPromptContent pm.2 resourceMap
        loadPromptsLoop resourceMap rest
          (acc ++ [registerPrompt (promptBasename name) processed pm.1])
    else loadPromptsLoop resourceMap rest acc

/-- `loadPrompts` from src/prompts.ts, as the list of registrations it
performs for a given top-level directory listing. -/
def loadPrompts (root : List (Str × FNode))
    (resourceMap : List (Str × Str)) : List Registration :=
  loadPromptsLoop resourceMap root []

/-- The prompt names registered by a list of registrations. -/
def promptNames (regs : List Registration) : List Str :=
  regs.foldr (fun r acc => r.prompts.map (fun p => p.1) ++ acc) []

/-!  Positioning lemmas for the scanners and for `replaceFirst`, used to
settle the resource-resolution claims on arbitrary surrounding text. -/

theorem startsWith_append_self : ∀ (p s : Str), startsWith p (p ++ s) = true
  | [], _ => rfl
  | c :: t, s => by simp [startsWith, startsWith_append_self t s]

theorem tryResMatch_none_of_head {c : Char} (t : Str) (h : c ≠ lb) :
    tryResMatch (c :: t) = none := by
  unfold tryResMatch
  rw [if_neg]
  intro hsw
  simp only [resOpen, startsWith, Bool.and_eq_true, decide_eq_true_eq] at hsw
  exact h hsw.1.symm

theorem scanRes_eq_none {c : Char} {t : Str}
    (h : tryResMatch (c :: t) = none) : scanRes (c :: t) = scanRes t := by
  rw [scanRes_cons, h]

theorem scanRes_eq_some {s r : Str} {fp : Str × Str}
    (h : tryResMatch s = some (fp, r)) : scanRes s = fp :: scanRes r := by
  cases s with
  | nil =>
    have hnil : tryResMatch ([] : Str) = none := rfl
    rw [hnil] at h
    exact Option.noConfusion h
  | cons c t => rw [scanRes_cons, h]

theorem scanRes_append_of {p : Str} (hp : ∀ c ∈ p, c ≠ lb) (s : Str) :
    scanRes (p ++ s) = scanRes s := by
  induction p with
  | nil => rfl
  | cons c t ih =>
    have hc : c ≠ lb := hp c (List.mem_cons_self ..)
    have ht : ∀ x ∈ t, x ≠ lb := fun x hx => hp x (List.mem_cons_of_mem _ hx)
    rw [List.cons_append, scanRes_eq_none (tryResMatch_none_of_head _ hc)]
    exact ih ht

theorem lazyDot_closed {X : Str}
    (hX : ∀ c ∈ X, c ≠ rb ∧ isLineTerm c = false) (s : Str) :
    lazyDot (X ++ rb :: rb :: s) = some (X, s) := by
  induction X with
  | nil => simp [lazyDot]
  | cons c X' ih =>
    have hc := hX c (List.mem_cons_self ..)
    have hX' : ∀ x ∈ X', x ≠ rb ∧ isLineTerm x = false :=
      fun x hx => hX x (List.mem_cons_of_mem _ hx)
    simp only [List.cons_append, lazyDot, List.append_eq]
    rw [if_neg (fun hcl => hc.1 hcl.1), if_neg (by simp [hc.2]), ih hX']
    rfl

theorem tryResMatch_token {X : Str}
    (hX : ∀ c ∈ X, c ≠ rb ∧ isLineTerm c = false) (s : Str) :
    tryResMatch (resTok X ++ s) = some ((resTok X, X), s) := by
  have hsplit : resTok X ++ s = resOpen ++ (X ++ rb :: rb :: s) := by
    simp [resTok, List.append_assoc]
  unfold tryResMatch
  rw [if_pos]
  · have hdrop : (resTok X ++ s).drop resOpen.length = X ++ rb :: rb :: s := by
      rw [hsplit, List.drop_left]
    rw [hdrop, lazyDot_closed hX]
  · rw [hsplit]
    exact startsWith_append_self ..

theorem scanRes_token {X : Str}
    (hX : ∀ c ∈ X, c ≠ rb ∧ isLineTerm c = false) (s : Str) :
    scanRes (resTok X ++ s) = (resTok X, X) :: scanRes s :=
  scanRes_eq_some (tryResMatch_token hX s)

theorem firstOcc_of_startsWith {pat s : Str} (h : startsWith pat s = true) :
    firstOcc pat s = some 0 := by
  cases s with
  | nil => simp [firstOcc, h]
  | cons c t => simp [firstOcc, h]

theorem firstOcc_append_of {pt p : Str} (hp : ∀ c ∈ p, c ≠ lb) (s : Str) :
    firstOcc (lb :: pt) (p ++ s) =
      (firstOcc (lb :: pt) s).map (· + p.length) := by
  induction p with
  | nil =>
    simp only [List.nil_append, List.length_nil]
    cases firstOcc (lb :: pt) s <;> simp
  | cons c t ih =>
    have hc : c ≠ lb := hp c (List.mem_cons_self ..)
    have ht : ∀ x ∈ t, x ≠ lb := fun x hx => hp x (List.mem_cons_of_mem _ hx)
    have hsw : ¬ startsWith (lb :: pt) (c :: (t ++ s)) = true := by
      simp only [startsWith, Bool.and_eq_true, decide_eq_true_eq]
      intro hT
      exact hc hT.1.symm
    simp only [List.cons_append, firstOcc, List.append_eq]
    rw [if_neg hsw, ih ht]
    cases firstOcc (lb :: pt) s <;> simp [Nat.add_assoc]

theorem replaceFirst_some {s pat repl : Str} {i : Nat}
    (h : firstOcc pat s = some i) :
    replaceFirst s pat repl =
      s.take i ++ getSubst pat (s.take i) (s.drop (i + pat.length)) repl ++
        s.drop (i + pat.length) := by
  unfold replaceFirst
  rw [h]

theorem replaceFirst_at {p pat q repl : Str} (hp : ∀ c ∈ p, c ≠ lb)
    (hpat : pat.head? = some lb) :
    replaceFirst (p ++ pat ++ q) pat repl =
      p ++ getSubst pat p q repl ++ q := by
  cases pat with
  | nil => simp at hpat
  | cons c pt =>
    simp only [List.head?_cons, Option.some.injEq] at hpat
    subst hpat
    have h1 : firstOcc (lb :: pt) (p ++ (lb :: pt) ++ q) = some p.length := by
      rw [List.append_assoc, firstOcc_append_of hp,
        firstOcc_of_startsWith (startsWith_append_self ..)]
      simp
    have htake : (p ++ (lb :: pt) ++ q).take p.length = p := by
      rw [List.append_assoc]
      exact List.take_left ..
    have hdrop : (p ++ (lb :: pt) ++ q).drop (p.length + (lb :: pt).length)
        = q := by
      rw [← List.length_append]
      exact List.drop_left ..
    rw [replaceFirst_some h1, htake, hdrop]

theorem notFoundMsg_chars {X : Str} {c : Char} (hc : c ∈ notFoundMsg X) :
    c ∈ X ∨ (c ≠ lb ∧ c ≠ '$') := by
  unfold notFoundMsg at hc
  rcases List.mem_append.1 hc with hc | hc
  · rcases List.mem_append.1 hc with hc | hc
    · right
      fin_cases hc <;> exact ⟨by decide, by decide⟩
    · exact Or.inl hc
  · right
    fin_cases hc
    exact ⟨by decide, by decide⟩

/-!  Properties of `extractVariables`. -/

theorem extractFold_nodup (l : List Str) : ∀ acc : List Str, acc.Nodup →
    (l.foldl
      (fun acc v =>
        if startsWith (strOf "resource:") v then acc
        else if v ∈ acc then acc else acc ++ [v]) acc).Nodup := by
  induction l with
  | nil => intro acc h; exact h
  | cons v l ih =>
    intro acc h
    simp only [List.foldl_cons]
    by_cases h1 : startsWith (strOf "resource:") v = true
    · simpa [h1] using ih acc h
    · simp only [Bool.not_eq_true] at h1
      by_cases h2 : v ∈ acc
      · simpa [h1, h2] using ih acc h
      · have : (acc ++ [v]).Nodup := by
          rw [List.nodup_append]
          refine ⟨h, List.nodup_singleton v, ?_⟩
          intro a ha hav
          simp only [List.mem_singleton] at hav
          exact h2 (hav ▸ ha)
        simpa [h1, h2] using ih (acc ++ [v]) this

theorem extractFold_filter (l : List Str) : ∀ acc : List Str,
    (∀ v ∈ acc, startsWith (strOf "resource:") v = false) →
    ∀ w ∈ l.foldl
      (fun acc v =>
        if startsWith (strOf "resource:") v then acc
        else if v ∈ acc then acc else acc ++ [v]) acc,
      startsWith (strOf "resource:") w = false := by
  induction l with
  | nil => intro acc h; exact h
  | cons v l ih =>
    intro acc h
    simp only [List.foldl_cons]
    by_cases h1 : startsWith (strOf "resource:") v = true
    · simpa [h1] using ih acc h
    · simp only [Bool.not_eq_true] at h1
      by_cases h2 : v ∈ acc
      · simpa [h1, h2] using ih acc h
      · have hacc : ∀ w ∈ acc ++ [v],
            startsWith (strOf "resource:") w = false := by
          intro w hw
          rcases List.mem_append.1 hw with hw | hw
          · exact h w hw
          · simp only [List.mem_singleton] at hw
            exact hw ▸ h1
        simpa [h1, h2] using ih (acc ++ [v]) hacc

theorem tryVarMatch_none_of_head {c : Char} (t : Str) (h : c ≠ lb) :
    tryVarMatch (c :: t) = none := by
  cases t with
  | nil => rfl
  | cons c2 rest =>
    simp only [tryVarMatch]
    rw [if_neg]
    intro hc
    exact h hc.1

theorem scanVars_cons_none {c : Char} {t : Str}
    (h : tryVarMatch (c :: t) = none) : scanVars (c :: t) = scanVars t := by
  rw [scanVars_cons, h]

theorem scanVars_cons_some {c : Char} {t n r : Str}
    (h : tryVarMatch (c :: t) = some (n, r)) :
    scanVars (c :: t) = n :: scanVars r := by
  rw [scanVars_cons, h]

theorem scanVars_append_of {p : Str} (hp : ∀ c ∈ p, c ≠ lb) (s : Str) :
    scanVars (p ++ s) = scanVars s := by
  induction p with
  | nil => rfl
  | cons c t ih =>
    have hc : c ≠ lb := hp c (List.mem_cons_self ..)
    have ht : ∀ x ∈ t, x ≠ lb := fun x hx => hp x (List.mem_cons_of_mem _ hx)
    rw [List.cons_append,
      scanVars_cons_none (tryVarMatch_none_of_head _ hc)]
    exact ih ht

theorem scanVars_braced_of {ch : Char} (hch : isNameChar ch = true) (s : Str) :
    scanVars (braced [ch] ++ s) = [ch] :: scanVars s := by
  have hrb : isNameChar rb = false := by decide
  have : braced [ch] ++ s = lb :: lb :: ch :: rb :: rb :: s := by
    simp [braced]
  rw [this, scanVars_cons]
  simp [tryVarMatch, List.takeWhile, List.dropWhile, hch, hrb]

/-- C7: for every input text, `extractVariables` returns names without
duplicates; and on any text that consists of the tokens
`\x7b\x7ba\x7d\x7d\x7b\x7ba\x7d\x7d\x7b\x7bb\x7d\x7d` separated by arbitrary
brace-opener-free filler, the result is exactly `["a", "b"]` — unique and in
first-occurrence order, independent of the repetition of `a`. -/
theorem c7_extract_variables_unique :
    (∀ s : Str, (extractVariables s).Nodup) ∧
    ∀ p q r t : Str, (∀ c ∈ p, c ≠ lb) → (∀ c ∈ q, c ≠ lb) →
      (∀ c ∈ r, c ≠ lb) → (∀ c ∈ t, c ≠ lb) →
      extractVariables (p ++ braced (strOf "a") ++ q ++ braced (strOf "a") ++
        r ++ braced (strOf "b") ++ t) = [strOf "a", strOf "b"] := by
  constructor
  · intro s
    exact extractFold_nodup (scanVars s) [] List.nodup_nil
  · intro p q r t hp hq hr ht
    have ha : isNameChar 'a' = true := by decide
    have hb : isNameChar 'b' = true := by decide
    have htnil : scanVars t = [] := by
      have := scanVars_append_of ht ([] : Str)
      simpa using this
    have hscan : scanVars (p ++ braced (strOf "a") ++ q ++ braced (strOf "a")
        ++ r ++ braced (strOf "b") ++ t) = [['a'], ['a'], ['b']] := by
      have e1 : p ++ braced (strOf "a") ++ q ++ braced (strOf "a")
          ++ r ++ braced (strOf "b") ++ t
          = p ++ (braced ['a'] ++ (q ++ (braced ['a'] ++
            (r ++ (braced ['b'] ++ t))))) := by
        simp only [show strOf "a" = ['a'] from rfl,
          show strOf "b" = ['b'] from rfl, List.append_assoc]
      rw [e1, scanVars_append_of hp, scanVars_braced_of ha,
        scanVars_append_of hq, scanVars_braced_of ha,
        scanVars_append_of hr, scanVars_braced_of hb, htnil]
    unfold extractVariables
    rw [hscan]
    decide

/-- C7 witness: the filler theorem applied at concrete filler text. -/
theorem c7_extract_variables_unique_witness :
    extractVariables (strOf "x " ++ braced (strOf "a") ++ strOf " y " ++
      braced (strOf "a") ++ strOf " z " ++ braced (strOf "b") ++ strOf " w")
      = [strOf "a", strOf "b"] :=
  c7_extract_variables_unique.2 (strOf "x ") (strOf " y ") (strOf " z ")
    (strOf " w") (by decide) (by decide) (by decide) (by decide)

/-- C9: no name returned by `extractVariables` lies in the `resource:`
namespace, and on the spec's example text the extraction returns exactly
`["variable1"]`. -/
theorem c9_no_resource_names :
    (∀ (s v : Str), v ∈ extractVariables s →
      startsWith (strOf "resource:") v = false) ∧
    extractVariables (strOf "This has " ++ braced (strOf "variable1") ++
      strOf " and " ++ braced (strOf "resource:path/to/resource") ++
      strOf ".") = [strOf "variable1"] := by
  constructor
  · intro s v hv
    exact extractFold_filter (scanVars s) [] (by simp) v hv
  · decide

/-- C9 witness: the invariant applied to the example input and its returned
name. -/
theorem c9_no_resource_names_witness :
    startsWith (strOf "resource:") (strOf "variable1") = false :=
  c9_no_resource_names.1
    (strOf "This has " ++ braced (strOf "variable1") ++ strOf " and " ++
      braced (strOf "resource:path/to/resource") ++ strOf ".")
    (strOf "variable1") (by decide)

/-!  Properties of the directory-scan models. -/

theorem registerPrompt_prompts (n c : Str) (m : PromptMetadata) :
    (registerPrompt n c m).prompts = [(n, m.description, c)] := by
  unfold registerPrompt
  split <;> rfl

theorem keysOf_setAssoc_self (m : List (Str × Str)) (k v : Str) :
    k ∈ keysOf (setAssoc m k v) := by
  induction m with
  | nil => simp [setAssoc, keysOf]
  | cons kv t ih =>
    obtain ⟨k1, v1⟩ := kv
    simp only [setAssoc]
    split
    · simp [keysOf]
    · simp only [keysOf, List.map_cons, List.mem_cons]
      exact Or.inr ih

theorem keysOf_setAssoc_of_mem {m : List (Str × Str)} {k : Str} (k0 v : Str)
    (h : k ∈ keysOf m) : k ∈ keysOf (setAssoc m k0 v) := by
  induction m with
  | nil => simp [keysOf] at h
  | cons kv t ih =>
    obtain ⟨k1, v1⟩ := kv
    simp only [keysOf, List.map_cons, List.mem_cons] at h
    simp only [setAssoc]
    split
    · rename_i heq
      simp only [keysOf, List.map_cons, List.mem_cons]
      rcases h with h | h
      · exact Or.inl (h.trans heq)
      · exact Or.inr h
    · simp only [keysOf, List.map_cons, List.mem_cons]
      rcases h with h | h
      · exact Or.inl h
      · exact Or.inr (ih h)

theorem keysOf_setAssoc_mem {m : List (Str × Str)} {k v k' : Str}
    (h : k' ∈ keysOf (setAssoc m k v)) : k' = k ∨ k' ∈ keysOf m := by
  induction m with
  | nil => simpa [setAssoc, keysOf] using h
  | cons kv t ih =>
    obtain ⟨k1, v1⟩ := kv
    simp only [setAssoc] at h
    split at h
    · simp only [keysOf, List.map_cons, List.mem_cons] at h ⊢
      rcases h with h | h
      · exact Or.inl h
      · exact Or.inr (Or.inr h)
    · simp only [keysOf, List.map_cons, List.mem_cons] at h ⊢
      rcases h with h | h
      · exact Or.inr (Or.inl h)
      · rcases ih h with h | h
        · exact Or.inl h
        · exact Or.inr (Or.inr h)

theorem loadResLoop_keys_mono : ∀ (entries : List (Str × FNode))
    (acc : List (Str × Str)) (k : Str), k ∈ keysOf acc →
    k ∈ keysOf (loadResLoop entries acc) := by
  intro entries
  induction entries with
  | nil => intro acc k h; exact h
  | cons e rest ih =>
    intro acc k h
    obtain ⟨name, node⟩ := e
    simp only [loadResLoop]
    split
    · cases node with
      | broken => exact h
      | dir ch => exact ih acc k h
      | fileErr => exact ih acc k h
      | fileOk c => exact ih _ k (keysOf_setAssoc_of_mem _ _ h)
    · exact ih acc k h

theorem loadResLoop_mem : ∀ (entries : List (Str × FNode))
    (acc : List (Str × Str)) {name c : Str},
    (∀ e ∈ entries, e.2 ≠ FNode.broken) →
    (name, FNode.fileOk c) ∈ entries →
    endsWith (strOf ".txt") name = true →
    fileUri (stripExt name) ∈ keysOf (loadResLoop entries acc) := by
  intro entries
  induction entries with
  | nil =>
    intro acc name c _ hmem _
    simp at hmem
  | cons e rest ih =>
    intro acc name c hnb hmem htxt
    obtain ⟨n0, node0⟩ := e
    have hnb' : ∀ e ∈ rest, e.2 ≠ FNode.broken :=
      fun e he => hnb e (List.mem_cons_of_mem _ he)
    rcases List.mem_cons.1 hmem with heq | hmem'
    · obtain ⟨rfl, rfl⟩ := Prod.mk.injEq .. ▸ heq
      simp only [loadResLoop, htxt, if_true]
      exact loadResLoop_keys_mono rest _ _ (keysOf_setAssoc_self ..)
    · have hn0 : node0 ≠ FNode.broken := hnb (n0, node0) (List.mem_cons_self ..)
      simp only [loadResLoop]
      split
      · cases node0 with
        | broken => exact absurd rfl hn0
        | dir ch => exact ih acc hnb' hmem' htxt
        | fileErr => exact ih acc hnb' hmem' htxt
        | fileOk c0 => exact ih _ hnb' hmem' htxt
      · exact ih acc hnb' hmem' htxt

theorem loadResLoop_keys_src : ∀ (entries : List (Str × FNode))
    (acc : List (Str × Str)) (k : Str),
    k ∈ keysOf (loadResLoop entries acc) →
    k ∈ keysOf acc ∨ ∃ n c, (n, FNode.fileOk c) ∈ entries ∧
      endsWith (strOf ".txt") n = true ∧ k = fileUri (stripExt n) := by
  intro entries
  induction entries with
  | nil => intro acc k h; exact Or.inl h
  | cons e rest ih =>
    intro acc k h
    obtain ⟨n0, node0⟩ := e
    simp only [loadResLoop] at h
    by_cases ht : endsWith (strOf ".txt") n0 = true
    · rw [if_pos ht] at h
      cases node0 with
      | broken => exact Or.inl h
      | dir ch =>
        rcases ih acc k h with h | ⟨n, c, hm, he, hk⟩
        · exact Or.inl h
        · exact Or.inr ⟨n, c, List.mem_cons_of_mem _ hm, he, hk⟩
      | fileErr =>
        rcases ih acc k h with h | ⟨n, c, hm, he, hk⟩
        · exact Or.inl h
        · exact Or.inr ⟨n, c, List.mem_cons_of_mem _ hm, he, hk⟩
      | fileOk c0 =>
        rcases ih _ k h with h | ⟨n, c, hm, he, hk⟩
        · rcases keysOf_setAssoc_mem h with h | h
          · exact Or.inr ⟨n0, c0, List.mem_cons_self .., ht, h⟩
          · exact Or.inl h
        · exact Or.inr ⟨n, c, List.mem_cons_of_mem _ hm, he, hk⟩
    · rw [if_neg ht] at h
      rcases ih acc k h with h | ⟨n, c, hm, he, hk⟩
      · exact Or.inl h
      · exact Or.inr ⟨n, c, List.mem_cons_of_mem _ hm, he, hk⟩

theorem promptNames_cons (r : Registration) (t : List Registration) :
    promptNames (r :: t) = r.prompts.map (fun p => p.1) ++ promptNames t :=
  rfl

theorem promptNames_append (a b : List Registration) :
    promptNames (a ++ b) = promptNames a ++ promptNames b := by
  induction a with
  | nil => rfl
  | cons r t ih =>
    rw [List.cons_append, promptNames_cons, promptNames_cons, ih,
      List.append_assoc]

theorem loadPromptsLoop_names_mono (rm : List (Str × Str)) :
    ∀ (entries : List (Str × FNode)) (acc : List Registration) (k : Str),
    k ∈ promptNames acc → k ∈ promptNames (loadPromptsLoop rm entries acc)
    := by
  intro entries
  induction entries with
  | nil => intro acc k h; exact h
  | cons e rest ih =>
    intro acc k h
    obtain ⟨name, node⟩ := e
    simp only [loadPromptsLoop]
    split
    · cases node with
      | broken => exact h
      | dir ch => exact ih acc k h
      | fileErr => exact ih acc k h
      | fileOk raw =>
        apply ih
        rw [promptNames_append]
        exact List.mem_append.2 (Or.inl h)
    · exact ih acc k h

theorem loadPromptsLoop_mem (rm : List (Str × Str)) :
    ∀ (entries : List (Str × FNode)) (acc : List Registration)
    {name c : Str},
    (∀ e ∈ entries, e.2 ≠ FNode.broken) →
    (name, FNode.fileOk c) ∈ entries →
    endsWith (strOf ".txt") name = true →
    promptBasename name ∈ promptNames (loadPromptsLoop rm entries acc) := by
  intro entries
  induction entries with
  | nil =>
    intro acc name c _ hmem _
    simp at hmem
  | cons e rest ih =>
    intro acc name c hnb hmem htxt
    obtain ⟨n0, node0⟩ := e
    have hnb' : ∀ e ∈ rest, e.2 ≠ FNode.broken :=
      fun e he => hnb e (List.mem_cons_of_mem _ he)
    rcases List.mem_cons.1 hmem with heq | hmem'
    · obtain ⟨rfl, rfl⟩ := Prod.mk.injEq .. ▸ heq
      simp only [loadPromptsLoop, htxt, if_true]
      apply loadPromptsLoop_names_mono
      rw [promptNames_append, promptNames_cons, registerPrompt_prompts]
      simp
    · have hn0 : node0 ≠ FNode.broken := hnb (n0, node0) (List.mem_cons_self ..)
      simp only [loadPromptsLoop]
      split
      · cases node0 with
        | broken => exact absurd rfl hn0
        | dir ch => exact ih acc hnb' hmem' htxt
        | fileErr => exact ih acc hnb' hmem' htxt
        | fileOk raw => exact ih _ hnb' hmem' htxt
      · exact ih acc hnb' hmem' htxt

theorem loadPromptsLoop_names_src (rm : List (Str × Str)) :
    ∀ (entries : List (Str × FNode)) (acc : List Registration) (k : Str),
    k ∈ promptNames (loadPromptsLoop rm entries acc) →
    k ∈ promptNames acc ∨ ∃ n c, (n, FNode.fileOk c) ∈ entries ∧
      endsWith (strOf ".txt") n = true ∧ k = promptBasename n := by
  intro entries
  induction entries with
  | nil => intro acc k h; exact Or.inl h
  | cons e rest ih =>
    intro acc k h
    obtain ⟨n0, node0⟩ := e
    simp only [loadPromptsLoop] at h
    by_cases ht : endsWith (strOf ".txt") n0 = true
    · rw [if_pos ht] at h
      cases node0 with
      | broken => exact Or.inl h
      | dir ch =>
        rcases ih acc k h with h | ⟨n, c, hm, he, hk⟩
        · exact Or.inl h
        · exact Or.inr ⟨n, c, List.mem_cons_of_mem _ hm, he, hk⟩
      | fileErr =>
        rcases ih acc k h with h | ⟨n, c, hm, he, hk⟩
        · exact Or.inl h
        · exact Or.inr ⟨n, c, List.mem_cons_of_mem _ hm, he, hk⟩
      | fileOk raw =>
        rcases ih _ k h with h | ⟨n, c, hm, he, hk⟩
        · rw [promptNames_append, promptNames_cons,
            registerPrompt_prompts] at h
          rcases List.mem_append.1 h with h | h
          · exact Or.inl h
          · simp only [List.map_cons, List.map_nil, promptNames,
              List.foldr_nil, List.append_nil, List.mem_singleton] at h
            exact Or.inr ⟨n0, raw, List.mem_cons_self .., ht, h⟩
        · exact Or.inr ⟨n, c, List.mem_cons_of_mem _ hm, he, hk⟩
    · rw [if_neg ht] at h
      rcases ih acc k h with h | ⟨n, c, hm, he, hk⟩
      · exact Or.inl h
      · exact Or.inr ⟨n, c, List.mem_cons_of_mem _ hm, he, hk⟩

/-- C3 counterexample: with the resource map keyed exactly by the path string
`test/resource` — as the claim requires — the resolver misses (it looks up
`file://test/resource`), so the output is the not-found placeholder, not the
claimed `This references resource content.`. -/
theorem c3_counterexample :
    processPromptContent
      (strOf "This references " ++ resTok (strOf "test/resource") ++ strOf ".")
      [(strOf "test/resource", strOf "resource content")]
      = strOf "This references [Resource not found: test/resource]." ∧
    processPromptContent
      (strOf "This references " ++ resTok (strOf "test/resource") ++ strOf ".")
      [(strOf "test/resource", strOf "resource content")]
      ≠ strOf "This references resource content." := ⟨by decide, by decide⟩

/-- C3 amended: the resolver prefixes looked-up paths with `file://`, so with
the map keyed by `file://test/resource` (the form under which the loader
stores resources) the output is exactly `This references resource content.`. -/
theorem c3_resource_resolution :
    processPromptContent
      (strOf "This references " ++ resTok (strOf "test/resource") ++ strOf ".")
      [(fileUri (strOf "test/resource"), strOf "resource content")]
      = strOf "This references resource content." := by decide

/-- C4 counterexample: substitution is not verbatim — the mapped content is
passed through the JavaScript replacement-string interpretation, so content
`$$x` is embedded as `$x`. -/
theorem c4_counterexample :
    processPromptContent (strOf "A" ++ resTok (strOf "p") ++ strOf "B")
      [(fileUri (strOf "p"), strOf "$$x")] = strOf "A$xB" ∧
    strOf "A$xB" ≠ strOf "A" ++ strOf "$$x" ++ strOf "B" :=
  ⟨by decide, by decide⟩

/-- C4 amended: the full token is replaced by the mapped content with
JavaScript `$`-escape interpretation applied to it; for content containing no
`$` the replacement is verbatim, and no recursive resolution is performed:
the substituted content is emitted unchanged even when it is itself template
syntax — substitution is a single pass over the tokens of the original
text. -/
theorem c4_single_pass_substitution
    {p q X c : Str} (m : List (Str × Str))
    (hp : ∀ ch ∈ p, ch ≠ lb) (hq : ∀ ch ∈ q, ch ≠ lb)
    (hX : ∀ ch ∈ X, ch ≠ rb ∧ isLineTerm ch = false)
    (hm : mapGet m (fileUri X) = some c) (hc : c ≠ []) (hcd : '$' ∉ c) :
    processPromptContent (p ++ resTok X ++ q) m = p ++ c ++ q := by
  have hqnil : scanRes q = [] := by
    have := scanRes_append_of hq ([] : Str)
    simpa using this
  have hscan : scanRes (p ++ resTok X ++ q) = [(resTok X, X)] := by
    rw [List.append_assoc, scanRes_append_of hp, scanRes_token hX, hqnil]
  unfold processPromptContent
  rw [hscan, List.foldl_cons, List.foldl_nil, resolveStep_found hm hc,
    replaceFirst_at hp (show (resTok X).head? = some lb from rfl),
    getSubst_no_dollar _ _ _ hcd]

/-- C4 witness: content that is itself a resource token is embedded verbatim
and left unresolved. -/
theorem c4_single_pass_substitution_witness :
    processPromptContent (strOf "A " ++ resTok (strOf "p") ++ strOf " B")
      [(fileUri (strOf "p"), resTok (strOf "q"))]
      = strOf "A " ++ resTok (strOf "q") ++ strOf " B" :=
  @c4_single_pass_substitution (strOf "A ") (strOf " B") (strOf "p")
    (resTok (strOf "q")) [(fileUri (strOf "p"), resTok (strOf "q"))]
    (by decide) (by decide) (by decide) (by decide) (by decide) (by decide)

/-- C6 counterexample: the placeholder replacement is itself `$`-interpreted
by `String.prototype.replace`, so for the missing path `$$` the output reads
`[Resource not found: $]` — the placeholder does not contain the literal
missing path, contrary to the claim. -/
theorem c6_counterexample :
    processPromptContent (strOf "A" ++ resTok (strOf "$$") ++ strOf "B") []
      = strOf "A[Resource not found: $]B" ∧
    containsSub (strOf "$$")
      (processPromptContent
        (strOf "A" ++ resTok (strOf "$$") ++ strOf "B") []) = false :=
  ⟨by decide, by decide⟩

/-- C6 amended: a missing resource never throws (the embedding is total) and
is replaced by the `[Resource not found: <path>]` placeholder subjected to
the JavaScript replacement-string `$`-interpretation — so for missing paths
containing no `$` the placeholder carries the literal missing path — while
processing continues: a later token in the same text is still resolved. -/
theorem c6_missing_resource_placeholder
    {p q r X Y cY : Str} (m : List (Str × Str))
    (hp : ∀ ch ∈ p, ch ≠ lb) (hq : ∀ ch ∈ q, ch ≠ lb)
    (hr : ∀ ch ∈ r, ch ≠ lb)
    (hX : ∀ ch ∈ X, ch ≠ lb ∧ ch ≠ rb ∧ isLineTerm ch = false ∧ ch ≠ '$')
    (hY : ∀ ch ∈ Y, ch ≠ rb ∧ isLineTerm ch = false)
    (hmX : mapGet m (fileUri X) = none)
    (hmY : mapGet m (fileUri Y) = some cY) (hcY : cY ≠ [])
    (hcYd : '$' ∉ cY) :
    processPromptContent (p ++ resTok X ++ q ++ resTok Y ++ r) m
      = p ++ notFoundMsg X ++ q ++ cY ++ r := by
  have hX' : ∀ ch ∈ X, ch ≠ rb ∧ isLineTerm ch = false :=
    fun ch h => ⟨(hX ch h).2.1, (hX ch h).2.2.1⟩
  have hrnil : scanRes r = [] := by
    have := scanRes_append_of hr ([] : Str)
    simpa using this
  have hnfd : '$' ∉ notFoundMsg X := by
    intro hmem
    rcases notFoundMsg_chars hmem with hin | hne
    · exact (hX _ hin).2.2.2 rfl
    · exact hne.2 rfl
  have hscan : scanRes (p ++ resTok X ++ q ++ resTok Y ++ r)
      = [(resTok X, X), (resTok Y, Y)] := by
    have e1 : p ++ resTok X ++ q ++ resTok Y ++ r
        = p ++ (resTok X ++ (q ++ (resTok Y ++ r))) := by
      simp [List.append_assoc]
    rw [e1, scanRes_append_of hp, scanRes_token hX', scanRes_append_of hq,
      scanRes_token hY, hrnil]
  unfold processPromptContent
  rw [hscan, List.foldl_cons, List.foldl_cons, List.foldl_nil,
    resolveStep_missing hmX, resolveStep_found hmY hcY]
  have e2 : p ++ resTok X ++ q ++ resTok Y ++ r
      = p ++ resTok X ++ (q ++ resTok Y ++ r) := by
    simp [List.append_assoc]
  rw [e2, replaceFirst_at hp (show (resTok X).head? = some lb from rfl),
    getSubst_no_dollar _ _ _ hnfd]
  have hP : ∀ ch ∈ p ++ notFoundMsg X ++ q, ch ≠ lb := by
    intro ch hch
    rcases List.mem_append.1 hch with hch | hch
    · rcases List.mem_append.1 hch with hch | hch
      · exact hp ch hch
      · rcases notFoundMsg_chars hch with hin | hne
        · exact (hX _ hin).1
        · exact hne.1
    · exact hq ch hch
  have e3 : p ++ notFoundMsg X ++ (q ++ resTok Y ++ r)
      = (p ++ notFoundMsg X ++ q) ++ resTok Y ++ r := by
    simp [List.append_assoc]
  rw [e3, replaceFirst_at hP (show (resTok Y).head? = some lb from rfl),
    getSubst_no_dollar _ _ _ hcYd]

/-- C2 counterexample: a template with variable list exactly `["x"]` whose
body contains the keyword `model`; invoking the tool with `{x: "5"}` and no
catch-all input appends the Dojo models documentation nudge after the
substituted text, so the result is not the bare substitution the claim
requires. -/
theorem c2_counterexample :
    extractVariables (braced (strOf "x") ++ strOf " model") = [strOf "x"] ∧
    toolHandler (strOf "t") (braced (strOf "x") ++ strOf " model")
      [(strOf "x", strOf "5")] = strOf "5 model" ++ modelNudge ∧
    toolHandler (strOf "t") (braced (strOf "x") ++ strOf " model")
      [(strOf "x", strOf "5")]
      ≠ replaceAllG (braced (strOf "x") ++ strOf " model")
          (braced (strOf "x")) (strOf "5") :=
  ⟨by decide, by decide, by decide⟩

/-- C2 amended: for a template whose extracted variable list is exactly
`["x"]`, invoked with `{x: "5"}` and no catch-all input, the handler returns
the body with every occurrence of the `x` token replaced by `5`, with
nothing appended — provided the substituted text triggers no Dojo
documentation nudge (no model/logic/config keyword) and the tool name does
not contain `dojo`.  (The counterexample shows the unconditional claim
fails: keyword-bearing content gets a documentation nudge appended.) -/
theorem c2_tool_substitution (toolName content : Str)
    (hvars : extractVariables content = [strOf "x"])
    (hdojo : containsSub (strOf "dojo") (lowerStr toolName) = false)
    (hkm : hasKw (replaceAllG content (braced (strOf "x")) (strOf "5"))
      modelKeywords = false)
    (hkl : hasKw (replaceAllG content (braced (strOf "x")) (strOf "5"))
      logicKeywords = false)
    (hkc : hasKw (replaceAllG content (braced (strOf "x")) (strOf "5"))
      configKeywords = false) :
    toolHandler toolName content [(strOf "x", strOf "5")]
      = replaceAllG content (braced (strOf "x")) (strOf "5") := by
  have hv : valueOf [(strOf "x", strOf "5")] (strOf "x") = strOf "5" := by
    decide
  have hiv : valueOf [(strOf "x", strOf "5")] (strOf "input") = [] := by
    decide
  simp only [toolHandler, hvars, List.foldl_cons, List.foldl_nil, hv, hiv,
    hdojo, ne_eq, not_true_eq_false, false_and, if_false, Bool.false_eq_true,
    if_neg, List.append_nil]
  simp only [addDojoDocsNudge, hkm, hkl, hkc]
  simp

/-- C2 witness: the amended statement at a keyword-free template. -/
theorem c2_tool_substitution_witness :
    toolHandler (strOf "t")
      (strOf "abc " ++ braced (strOf "x") ++ strOf " def")
      [(strOf "x", strOf "5")]
      = replaceAllG (strOf "abc " ++ braced (strOf "x") ++ strOf " def")
          (braced (strOf "x")) (strOf "5") :=
  c2_tool_substitution (strOf "t")
    (strOf "abc " ++ braced (strOf "x") ++ strOf " def")
    (by decide) (by decide) (by decide) (by decide) (by decide)

/-- C6 witness: one missing and one present resource in the same text. -/
theorem c6_missing_resource_placeholder_witness :
    processPromptContent
      (strOf "A " ++ resTok (strOf "miss") ++ strOf " mid " ++
        resTok (strOf "hit") ++ strOf " end")
      [(fileUri (strOf "hit"), strOf "HIT")]
      = strOf "A " ++ notFoundMsg (strOf "miss") ++ strOf " mid " ++
        strOf "HIT" ++ strOf " end" :=
  @c6_missing_resource_placeholder (strOf "A ") (strOf " mid ")
    (strOf " end") (strOf "miss") (strOf "hit") (strOf "HIT")
    [(fileUri (strOf "hit"), strOf "HIT")]
    (by decide) (by decide) (by decide) (by decide) (by decide) (by decide)
    (by decide) (by decide) (by decide)

/-- C5 counterexample: `fs.readdir` is called without the `recursive`
option, so a qualifying text file inside a subdirectory of the root is never
enumerated: whether the subdirectory is named `docs` (skipped by the `.txt`
filter) or `docs.txt` (skipped by the `isDirectory` check), the scan loads
nothing, and the key `file://docs/intro` the claim requires is absent. -/
theorem c5_counterexample :
    loadResources [(strOf "docs",
      FNode.dir [(strOf "intro.txt", strOf "intro content")])] = [] ∧
    loadResources [(strOf "docs.txt",
      FNode.dir [(strOf "intro.txt", strOf "intro content")])] = [] ∧
    loadPrompts [(strOf "docs",
      FNode.dir [(strOf "intro.txt", strOf "intro content")])] [] = [] ∧
    fileUri (strOf "docs/intro") ∉ keysOf (loadResources [(strOf "docs",
      FNode.dir [(strOf "intro.txt", strOf "intro content")])]) :=
  ⟨by decide, by decide, by decide, by decide⟩

/-- C5 amended: the scans enumerate only the root's immediate entries.
Every key of the resource map and every registered prompt name derives from
a top-level regular `.txt` file under its extension-stripped name; files
inside subdirectories are not loaded. -/
theorem c5_top_level_scan :
    (∀ (root : List (Str × FNode)) (k : Str),
      k ∈ keysOf (loadResources root) →
      ∃ n c, (n, FNode.fileOk c) ∈ root ∧
        endsWith (strOf ".txt") n = true ∧ k = fileUri (stripExt n)) ∧
    (∀ (root : List (Str × FNode)) (rm : List (Str × Str)) (k : Str),
      k ∈ promptNames (loadPrompts root rm) →
      ∃ n c, (n, FNode.fileOk c) ∈ root ∧
        endsWith (strOf ".txt") n = true ∧ k = promptBasename n) := by
  constructor
  · intro root k h
    rcases loadResLoop_keys_src root [] k h with h | h
    · simp [keysOf] at h
    · exact h
  · intro root rm k h
    rcases loadPromptsLoop_names_src rm root [] k h with h | h
    · simp [promptNames] at h
    · exact h

/-- C5 witness: the key-origin property applied to a one-file top-level
listing. -/
theorem c5_top_level_scan_witness :
    ∃ n c, (n, FNode.fileOk c) ∈
        [(strOf "a.txt", FNode.fileOk (strOf "Z"))] ∧
      endsWith (strOf ".txt") n = true ∧
      fileUri (strOf "a") = fileUri (stripExt n) :=
  c5_top_level_scan.1 [(strOf "a.txt", FNode.fileOk (strOf "Z"))]
    (fileUri (strOf "a")) (by decide)

/-- C8 counterexample: a `stat` failure is not contained to its file.  The
`fs.stat` call sits outside the per-file `try`, so an entry whose `stat`
throws aborts the remainder of the scan: with `a.txt` broken and `b.txt`
perfectly readable, the resulting map is empty and `b.txt` is lost. -/
theorem c8_counterexample :
    loadResources [(strOf "a.txt", FNode.broken),
      (strOf "b.txt", FNode.fileOk (strOf "B"))] = [] ∧
    fileUri (stripExt (strOf "b.txt")) ∉
      keysOf (loadResources [(strOf "a.txt", FNode.broken),
        (strOf "b.txt", FNode.fileOk (strOf "B"))]) ∧
    loadPrompts [(strOf "a.txt", FNode.broken),
      (strOf "b.txt", FNode.fileOk (strOf "B"))] [] = [] :=
  ⟨by decide, by decide, by decide⟩

/-- C8 amended: a failure to read (load) one file is contained to that file:
in any scan whose entries all stat successfully, every qualifying `.txt`
file that reads successfully ends up in the resource map / prompt registry,
whatever read errors the other files have.  A `stat` failure, by contrast,
aborts the remainder of the scan. -/
theorem c8_read_error_contained :
    (∀ (root : List (Str × FNode)) (name c : Str),
      (∀ e ∈ root, e.2 ≠ FNode.broken) →
      (name, FNode.fileOk c) ∈ root →
      endsWith (strOf ".txt") name = true →
      fileUri (stripExt name) ∈ keysOf (loadResources root)) ∧
    (∀ (root : List (Str × FNode)) (rm : List (Str × Str)) (name c : Str),
      (∀ e ∈ root, e.2 ≠ FNode.broken) →
      (name, FNode.fileOk c) ∈ root →
      endsWith (strOf ".txt") name = true →
      promptBasename name ∈ promptNames (loadPrompts root rm)) :=
  ⟨fun root _ _ hnb hmem htxt => loadResLoop_mem root [] hnb hmem htxt,
   fun root rm _ _ hnb hmem htxt =>
    loadPromptsLoop_mem rm root [] hnb hmem htxt⟩

/-- C8 witness: with one unreadable file and one readable file in the same
scan, the readable one is still loaded. -/
theorem c8_read_error_contained_witness :
    fileUri (stripExt (strOf "b.txt")) ∈
      keysOf (loadResources [(strOf "a.txt", FNode.fileErr),
        (strOf "b.txt", FNode.fileOk (strOf "B"))]) :=
  c8_read_error_contained.1
    [(strOf "a.txt", FNode.fileErr), (strOf "b.txt", FNode.fileOk (strOf "B"))]
    (strOf "b.txt") (strOf "B") (by decide) (by decide) (by decide)

/-- C1 (code bug): METADATA_PATTERN cannot match a truly empty metadata
block.  On the repo's own test input `---\n---\n\nThis is the prompt
content.` the regex finds no match — the lazy interior would have to absorb
the closing delimiter and then find another `\n---\s*\n`, which does not
exist — so `parseMetadata` returns the text unchanged, both delimiter lines
included, contradicting the claim (and the spec, and the repository's own
test expectation `result.content === '\nThis is the prompt content.'`).  A
block whose interior is a blank line, by contrast, is stripped. -/
theorem c1_empty_metadata_block_code_bug :
    parseMetadata (strOf "---\n---\n\nThis is the prompt content.")
      = ({}, strOf "---\n---\n\nThis is the prompt content.") ∧
    containsSub (strOf "---")
      (parseMetadata (strOf "---\n---\n\nThis is the prompt content.")).2
      = true ∧
    parseMetadata (strOf "---\n\n---\nBody") = ({}, strOf "Body") :=
  ⟨by decide, by decide, by decide⟩

/-- C10: `register_as_prompt` is parsed into the metadata record (both truthy
and falsy spellings), yet `registerPrompt` never consults it — the
registrations are identical whatever the field holds, and the prompt is
registered unconditionally. -/
theorem c10_register_as_prompt_ignored :
    (∀ (n c : Str) (m : PromptMetadata) (b : Option Bool),
      registerPrompt n c { m with registerAsPrompt := b } =
        registerPrompt n c m) ∧
    (∀ (n c : Str) (m : PromptMetadata),
      (registerPrompt n c m).prompts = [(n, m.description, c)]) ∧
    (parseMetadata
      (strOf "---\nregister_as_prompt: true\n---\nbody")).1.registerAsPrompt
      = some true ∧
    (parseMetadata
      (strOf "---\nregister_as_prompt: false\n---\nbody")).1.registerAsPrompt
      = some false := by
  refine ⟨fun n c m b => rfl, fun n c m => ?_, by decide, by decide⟩
  unfold registerPrompt
  split <;> rfl

end Sensei
